import Mathlib

/-!
# bqloadbatcher: generation buffer, segment files and dispatch

A shallow embedding of `buffer.go`, `file.go` and the dispatch / shutdown code of
`bqloadbatcher.go`.

* Go strings are `String`; `path.Base` and `strings.Split` work on the character list.
* A `*file` is a `file` record whose `addr` field is the identity of the allocation:
  two segments are the same instance exactly when their `addr` agree.
* `map[int]map[string]*file` is an association list with distinct keys (`AList`) of
  association lists with distinct keys; a missing outer key is Go's nil inner map.
* The generation counter `n` is a Go `int`; it is advanced by one per `shift` and is
  modelled by an unbounded integer.
* `os.OpenFile` is an environment call: its success is an input (`openOk`) of each
  `newFile` call.  The backend call in `insert` is an environment call as well.
* Goroutines are modelled by explicit program counters and a schedule that picks which
  thread performs its next atomic step.
-/

namespace bqloadbatcher

/-- Run-time faults of the Go program that the model distinguishes. -/
inductive Fault where
  | osError
  | indexOutOfRange
  | nilDereference
  | sendOnClosedChannel
deriving DecidableEq, Repr

deriving instance DecidableEq for Except

/-! ## file.go -/

/-- The struct `file`.  `addr` is the identity of the allocation, `bufr` is the
`*bytes.Buffer` field (`none` is the nil pointer), `gzip` and `bufw` are the bytes still
held by the gzip writer and by the `bufio.Writer`, `osFile` the bytes handed to the
operating system file. -/
structure file where
  addr : Nat
  name : String
  datasetID : String
  tableID : String
  bufr : Option (List Nat)
  gzip : List Nat
  bufw : List Nat
  osFile : List Nat
deriving DecidableEq, Repr

/-- Go `strings.Split(s, sep)` for a one-character separator: cut at every occurrence. -/
def stringsSplit (sep : Char) : List Char → List (List Char)
  | [] => [[]]
  | c :: cs =>
    if c = sep then [] :: stringsSplit sep cs
    else
      match stringsSplit sep cs with
      | [] => [[c]]
      | p :: ps => (c :: p) :: ps

/-- First loop of Go `path.Base`: strip the trailing slashes. -/
def stripTrailingSlashes (p : List Char) : List Char :=
  (p.reverse.dropWhile (fun c => c = '/')).reverse

/-- Second step of Go `path.Base`: keep what follows the last slash. -/
def lastElement (p : List Char) : List Char :=
  (p.reverse.takeWhile (fun c => c ≠ '/')).reverse

/-- Go `path.Base`. -/
def pathBase (p : List Char) : List Char :=
  if p = [] then ['.']
  else
    let q := lastElement (stripTrailingSlashes p)
    if q = [] then ['/'] else q

/-- The function `newFile`.  `addr` is the address the allocation would get and `openOk`
tells whether `os.OpenFile` succeeds.  `names[1]` and `names[2]` fault when the base name
has fewer than three dash-separated parts.  The field `bufr` is not assigned. -/
def newFile (addr : Nat) (openOk : Bool) (name : String) : Except Fault file :=
  let base := pathBase name.toList
  let names := stringsSplit '-' base
  if openOk then
    match names with
    | _ :: d :: t :: _ =>
      .ok { addr := addr, name := name, datasetID := String.mk d, tableID := String.mk t,
            bufr := none, gzip := [], bufw := [], osFile := [] }
    | _ => .error .indexOutOfRange
  else .error .osError

/-- The method `file.Write`: the encoder writes the encoded payload into the gzip writer.
`encode` is the JSON-and-gzip encoding of one payload. -/
def file.Write (encode : List Nat → List Nat) (f : file) (p : List Nat) : file :=
  { f with gzip := f.gzip ++ encode p }

/-- The method `file.Flush`: `gzip.Flush` hands the pending bytes to the `bufio.Writer`,
whose `Flush` hands them to the operating system file. -/
def file.Flush (f : file) : file :=
  { f with gzip := [], bufw := [], osFile := f.osFile ++ (f.bufw ++ f.gzip) }

/-- Go `(*bytes.Buffer).Len`: it reads the fields of its receiver, so a nil receiver
faults. -/
def bytesBufferLen : Option (List Nat) → Except Fault Nat
  | none => .error .nilDereference
  | some b => .ok b.length

/-- The method `file.Len`. -/
def file.Len (f : file) : Except Fault Nat :=
  bytesBufferLen f.bufr

/-! ## bqloadbatcher.go: naming -/

/-- The interface `Row`, without its payload. -/
structure Row where
  DatasetID : String
  TableID : String
deriving DecidableEq, Repr

/-- The method `Loader.name`: `fmt.Sprintf("%d-%s-%s", bq.prefix(), r.DatasetID(),
r.TableID())`; `stamp` is the value of `bq.prefix()`. -/
def Loader.name (stamp : Int) (r : Row) : String :=
  toString stamp ++ "-" ++ r.DatasetID ++ "-" ++ r.TableID

/-! ## buffer.go -/

/-- Go `map[string]*file`. -/
abbrev Bucket := AList (fun _ : String => file)

/-- Go `map[int]map[string]*file`. -/
abbrev GenMap := AList (fun _ : Int => Bucket)

/-- Equality of two Go maps, decided on their entries. -/
instance decEqBucket : DecidableEq Bucket :=
  fun a b => decidable_of_iff (a.entries = b.entries) ⟨AList.ext, fun h => congrArg _ h⟩

/-- Equality of two generation maps, decided on their entries. -/
instance decEqGenMap : DecidableEq GenMap :=
  fun a b => decidable_of_iff (a.entries = b.entries) ⟨AList.ext, fun h => congrArg _ h⟩

/-- The struct `buffer` (the lock is modelled by the atomicity of the steps). -/
structure buffer where
  rm : GenMap
  wm : GenMap
  n : Int
deriving DecidableEq

/-- Go `m[g][name]` with the comma-ok result: `none` when the bucket or the name is
missing. -/
def look (m : GenMap) (g : Int) (name : String) : Option file :=
  (m.lookup g).bind (fun b => b.lookup name)

/-- Go `if m[g] is missing { m[g] = map[string]*file{} }`. -/
def ensureBucket (m : GenMap) (g : Int) : GenMap :=
  if (m.lookup g).isNone then m.insert g ∅ else m

/-- Go `m[g][name] = v` on a bucket that exists (Go faults on a nil bucket; both callers
create the bucket first). -/
def assign (m : GenMap) (g : Int) (name : String) (v : file) : GenMap :=
  match m.lookup g with
  | some b => m.insert g (b.insert name v)
  | none => m

/-- Go `delete(m[g], name)`; deleting from a nil map does nothing. -/
def deleteKey (m : GenMap) (g : Int) (name : String) : GenMap :=
  match m.lookup g with
  | some b => m.insert g (b.erase name)
  | none => m

/-- Go `len(m)` of a possibly nil map. -/
def mapLen : Option Bucket → Nat
  | none => 0
  | some b => b.entries.length

/-- The function `newBuffer`. -/
def newBuffer : buffer :=
  { rm := ∅, wm := ∅, n := 0 }

/-- One iteration of the loop of `shift` for the entry `e` of `l.wm[l.n]`. -/
def shiftStep (g : Int) (s : GenMap × GenMap) (e : Sigma (fun _ : String => file)) :
    GenMap × GenMap :=
  (assign (ensureBucket s.1 g) g e.1 e.2, deleteKey s.2 g e.1)

/-- The entries a `range` over a possibly nil map visits. -/
def entriesOf : Option Bucket → List (Sigma (fun _ : String => file))
  | some b => b.entries
  | none => []

/-- The entries a `range` over `m[g]` visits. -/
def rangeOf (m : GenMap) (g : Int) : List (Sigma (fun _ : String => file)) :=
  entriesOf (m.lookup g)

/-- The method `buffer.shift`. -/
def buffer.shift (l : buffer) : buffer :=
  let s := (rangeOf l.wm l.n).foldl (shiftStep l.n) (l.rm, l.wm)
  { rm := s.1, wm := s.2, n := l.n + 1 }

/-- The method `buffer.readers`; `none` is the nil map. -/
def buffer.readers (l : buffer) (n : Int) : Option Bucket :=
  if n < 1 then none else l.rm.lookup (n - 1)

/-- The method `buffer.remove`. -/
def buffer.remove (l : buffer) (n : Int) (name : String) : buffer :=
  { l with rm := deleteKey l.rm n name }

/-- The method `buffer.iter`. -/
def buffer.iter (l : buffer) : Int :=
  l.n

/-- First lock section of `buffer.writer` (lines 62-64): the lookup under `RLock`. -/
def buffer.writerLookup (l : buffer) (name : String) : Option file :=
  look l.wm l.n name

/-- Second lock section of `buffer.writer` (lines 67-80): create and register under
`Lock`.  `next` is the address of the next allocation. -/
def buffer.writerCreate (l : buffer) (next : Nat) (openOk : Bool) (name : String) :
    Except Fault (file × buffer × Nat) :=
  match newFile next openOk name with
  | .error e => .error e
  | .ok f => .ok (f, { l with wm := assign (ensureBucket l.wm l.n) l.n name f }, next + 1)

/-- The method `buffer.writer`, run without interference: the lookup, then the creation
when the lookup missed. -/
def buffer.writer (l : buffer) (next : Nat) (openOk : Bool) (name : String) :
    Except Fault (file × buffer × Nat) :=
  match l.writerLookup name with
  | some f => .ok (f, l, next)
  | none => l.writerCreate next openOk name

/-! ## bqloadbatcher.go: dispatch -/

/-- First statements of `Loader.insert` that touch the segment (lines 216-218):
`f.Flush()` and then `size := f.Len()`. -/
def Loader.insertSize (f : file) : Except Fault Nat :=
  f.Flush.Len

/-- A submission task started by `insertAll`: the arguments `k`, `v` of the goroutine
and the generation number `n` it captured. -/
structure task where
  n : Int
  k : String
  v : file
deriving DecidableEq, Repr

/-! ## Sequential executions -/

/-- The calls of a sequential execution on the buffer.  `writer` carries the result of
its `os.OpenFile`.  `insertAll` stands for the statement of `Loader.insertAll` that
changes the buffer itself, `l.buffer.shift()`; the `remove` calls of the tasks it starts
are `remove` calls of the execution. -/
inductive Op where
  | writer (name : String) (openOk : Bool)
  | shift
  | remove (n : Int) (name : String)
  | insertAll
deriving DecidableEq, Repr

/-- The buffer and the address of the next allocation. -/
structure Sys where
  buf : buffer
  next : Nat

/-- The state before any call: `newBuffer()`. -/
def Sys.init : Sys :=
  { buf := newBuffer, next := 0 }

/-- One call.  A `writer` call that returns an error or faults leaves the buffer as it
was. -/
def Sys.step (s : Sys) : Op → Sys
  | .writer name openOk =>
    match s.buf.writer s.next openOk name with
    | .ok r => { s with buf := r.2.1, next := r.2.2 }
    | .error _ => s
  | .shift => { s with buf := s.buf.shift }
  | .remove n name => { s with buf := s.buf.remove n name }
  | .insertAll => { s with buf := s.buf.shift }

/-- The state after the calls `ops`, started from `newBuffer()`. -/
def Sys.run (ops : List Op) : Sys :=
  ops.foldl Sys.step Sys.init

/-- Calls that do not seal a generation. -/
def Op.noSeal : Op → Bool
  | .writer _ _ => true
  | .remove _ _ => true
  | .shift => false
  | .insertAll => false

/-- Invariant of the sequential executions: the counter is not negative; sealed entries
sit below the counter and active entries at the counter; every stored segment was
allocated; no segment is in both maps. -/
structure Sys.Inv (s : Sys) : Prop where
  n_nonneg : 0 ≤ s.buf.n
  rm_lt : ∀ k name f, look s.buf.rm k name = some f → k < s.buf.n ∧ f.addr < s.next
  wm_eq : ∀ k name f, look s.buf.wm k name = some f → k = s.buf.n ∧ f.addr < s.next
  wm_rm : ∀ k1 k2 a b f1 f2, look s.buf.wm k1 a = some f1 →
    look s.buf.rm k2 b = some f2 → f1.addr ≠ f2.addr

/-! ## Two concurrent `writer` calls -/

/-- Where one `writer(name)` call stands: before its `RLock` section, between the two
lock sections after a lookup that missed, or returned. -/
inductive WriterPc where
  | start
  | missed
  | returned (r : Except Fault file)
deriving DecidableEq

/-- The shared buffer, the allocator, the number of `newFile` calls made and the two
calls in flight. -/
structure Race where
  buf : buffer
  next : Nat
  newFileCalls : Nat
  a : WriterPc
  b : WriterPc
deriving DecidableEq

/-- One lock section of a `writer(name)` call standing at `pc`, on the shared state. -/
def writerSection (openOk : Bool) (name : String) (buf : buffer) (next calls : Nat) :
    WriterPc → (buffer × Nat × Nat) × WriterPc
  | .start =>
    match buf.writerLookup name with
    | some f => ((buf, next, calls), .returned (.ok f))
    | none => ((buf, next, calls), .missed)
  | .missed =>
    match buf.writerCreate next openOk name with
    | .ok r => ((r.2.1, r.2.2, calls + 1), .returned (.ok r.1))
    | .error e => ((buf, next, calls + 1), .returned (.error e))
  | .returned r => ((buf, next, calls), .returned r)

/-- The scheduler lets call `a` (`true`) or call `b` (`false`) run its next lock
section. -/
def Race.step (openOk : Bool) (name : String) (s : Race) (pick : Bool) : Race :=
  if pick then
    let r := writerSection openOk name s.buf s.next s.newFileCalls s.a
    { s with buf := r.1.1, next := r.1.2.1, newFileCalls := r.1.2.2, a := r.2 }
  else
    let r := writerSection openOk name s.buf s.next s.newFileCalls s.b
    { s with buf := r.1.1, next := r.1.2.1, newFileCalls := r.1.2.2, b := r.2 }

/-- Two `writer(name)` calls started on `buf`, interleaved by `schedule`. -/
def Race.run (openOk : Bool) (name : String) (buf : buffer) (next : Nat)
    (schedule : List Bool) : Race :=
  schedule.foldl (Race.step openOk name)
    { buf := buf, next := next, newFileCalls := 0, a := .start, b := .start }

/-! ## The goroutines of the loader -/

/-- The calls the calling goroutine makes one after another: `l.buffer.writer(name)`
(with the result of its `os.OpenFile`) and `l.insertAll()`. -/
inductive Call where
  | writer (name : String) (openOk : Bool)
  | insertAll
deriving DecidableEq

/-- Where the calling goroutine stands.  `next`: between two calls.  `tickerStop`,
`closeInput`, `closeSuccesses`, `closeErrors`, `done`: the statements of `Close` around
its `insertAll()`.  Inside `insertAll` (`closing` tells whether `Close` called it):
`shift` before `l.buffer.shift()` (line 176), `iter` before `n := l.buffer.iter()`
(line 178), `range` at the head of the loop over `l.buffer.readers(n)` (line 180) with
the names already visited, `gate` before `l.jobSem <- true` and the `go` statement
(lines 181-195) for the entry `k`, `v` the loop has reached. -/
inductive MainPc where
  | next
  | tickerStop
  | closeInput
  | shift (closing : Bool)
  | iter (closing : Bool)
  | range (closing : Bool) (n : Int) (visited : List String)
  | gate (closing : Bool) (n : Int) (visited : List String) (k : String) (v : file)
  | closeSuccesses
  | closeErrors
  | done
deriving DecidableEq

/-- Where a submission task stands: before `insert`, before sending its outcome
(`send` holds whether `insert` succeeded), before `remove`, before releasing its slot,
finished, or stopped by a fault. -/
inductive TaskPc where
  | insert
  | send (succeeded : Bool)
  | remove
  | release
  | done
  | crashed
deriving DecidableEq

/-- The part of `Loader` that the calls, `Close` and the tasks act on.  `successes` and
`errors` list the segment names of the outcomes delivered on the two channels (the caller
keeps reading, so a send on an open channel goes through); `jobSem` counts the slots in
use of the gate of capacity `MaxJobs`; `next` is the address of the next allocation;
`program` lists the calls still to make. -/
structure LoaderState where
  buffer : buffer
  next : Nat
  MaxJobs : Nat
  jobSem : Nat
  successes : List String
  errors : List String
  successesClosed : Bool
  errorsClosed : Bool
  inputClosed : Bool
  tickerStopped : Bool
  fault : Option Fault
  program : List Call
  main : MainPc
  tasks : List (task × TaskPc)
deriving DecidableEq

/-- A `Loader` with the buffer `b`, about to run `Close`. -/
def LoaderState.closing (b : bqloadbatcher.buffer) (maxJobs : Nat) : LoaderState :=
  { buffer := b, next := 0, MaxJobs := maxJobs, jobSem := 0, successes := [], errors := [],
    successesClosed := false, errorsClosed := false, inputClosed := false,
    tickerStopped := false, fault := none, program := [], main := .tickerStop, tasks := [] }

/-- A `Loader` with the buffer `b` and the allocator at `next`, about to make the calls
`program` one after another. -/
def LoaderState.calls (b : bqloadbatcher.buffer) (next maxJobs : Nat)
    (program : List Call) : LoaderState :=
  { buffer := b, next := next, MaxJobs := maxJobs, jobSem := 0, successes := [],
    errors := [], successesClosed := false, errorsClosed := false, inputClosed := false,
    tickerStopped := false, fault := none, program := program, main := .next, tasks := [] }

/-- The entries of the map the loop of `insertAll` ranges over that it has not visited.
The loop ranges over the map `readers(n)` itself, not over a copy: an entry a task has
deleted in the meantime is not produced. -/
def LoaderState.unvisited (s : LoaderState) (n : Int) (visited : List String) :
    List (Sigma (fun _ : String => file)) :=
  (entriesOf (s.buffer.readers n)).filter (fun e => decide (e.1 ∉ visited))

/-- The next step of the calling goroutine.  `choice` selects which unvisited entry the
`range` produces next (Go leaves the order open).  A `writer` call is one step: the tasks
only touch `rm`, the call only `wm`.  A `writer` call that returns an error changes
nothing; one that faults ends the calls.  A full gate blocks the loop: the step then
changes nothing. -/
def LoaderState.mainStep (choice : Nat) (s : LoaderState) : LoaderState :=
  match s.main with
  | .next =>
    match s.program with
    | [] => s
    | .writer name openOk :: rest =>
      match s.buffer.writer s.next openOk name with
      | .ok r => { s with buffer := r.2.1, next := r.2.2, program := rest }
      | .error .osError => { s with program := rest }
      | .error e => { s with program := [], fault := some e }
    | .insertAll :: rest => { s with program := rest, main := .shift false }
  | .tickerStop => { s with tickerStopped := true, main := .closeInput }
  | .closeInput => { s with inputClosed := true, main := .shift true }
  | .shift c => { s with buffer := s.buffer.shift, main := .iter c }
  | .iter c => { s with main := .range c s.buffer.iter [] }
  | .range c n visited =>
    match s.unvisited n visited with
    | [] => { s with main := if c then .closeSuccesses else .next }
    | e0 :: es =>
      { s with main := .gate c n ((((e0 :: es).get? choice).getD e0).1 :: visited)
                        (((e0 :: es).get? choice).getD e0).1
                        (((e0 :: es).get? choice).getD e0).2 }
  | .gate c n visited k v =>
    if s.jobSem < s.MaxJobs then
      { s with jobSem := s.jobSem + 1,
               tasks := s.tasks ++ [({ n := n, k := k, v := v }, .insert)],
               main := .range c n visited }
    else s
  | .closeSuccesses => { s with successesClosed := true, main := .closeErrors }
  | .closeErrors => { s with errorsClosed := true, main := .done }
  | .done => s

/-- The next step of one submission task; `backendOk` is the result of the backend call
made by `insert` for a segment name.  A send on a closed channel faults. -/
def LoaderState.taskStep (backendOk : String → Bool) (s : LoaderState) (t : task) :
    TaskPc → LoaderState × TaskPc
  | .insert => (s, .send (backendOk t.k))
  | .send true =>
    if s.successesClosed then ({ s with fault := some .sendOnClosedChannel }, .crashed)
    else ({ s with successes := s.successes ++ [t.k] }, .remove)
  | .send false =>
    if s.errorsClosed then ({ s with fault := some .sendOnClosedChannel }, .crashed)
    else ({ s with errors := s.errors ++ [t.k] }, .remove)
  | .remove => ({ s with buffer := s.buffer.remove t.n t.k }, .release)
  | .release => ({ s with jobSem := s.jobSem - 1 }, .done)
  | .done => (s, .done)
  | .crashed => (s, .crashed)

/-- Whose turn it is: the calling goroutine (with the entry its `range` would produce) or
the `i`-th task started. -/
inductive Turn where
  | main (choice : Nat)
  | task (i : Nat)
deriving DecidableEq

/-- One turn of the scheduler. -/
def LoaderState.step (backendOk : String → Bool) (s : LoaderState) : Turn → LoaderState
  | .main choice => s.mainStep choice
  | .task i =>
    match s.tasks.get? i with
    | none => s
    | some (t, pc) =>
      { (s.taskStep backendOk t pc).1 with
        tasks := (s.taskStep backendOk t pc).1.tasks.set i (t, (s.taskStep backendOk t pc).2) }

/-- The execution from the state `s` under `schedule`. -/
def LoaderState.exec (backendOk : String → Bool) (s : LoaderState)
    (schedule : List Turn) : LoaderState :=
  schedule.foldl (LoaderState.step backendOk) s

/-- The execution of `Close` on buffer `b` under `schedule`. -/
def LoaderState.run (backendOk : String → Bool) (b : bqloadbatcher.buffer) (maxJobs : Nat)
    (schedule : List Turn) : LoaderState :=
  LoaderState.exec backendOk (LoaderState.closing b maxJobs) schedule

/-- What holds of the calling goroutine inside one `insertAll()` call on the buffer `l`
once `shift()` is done: the generation number it holds is `l.n + 1` and the entry it has
reached is an entry of the sealed bucket. -/
def passMain (l : buffer) : MainPc → Prop
  | .next => True
  | .iter false => True
  | .range false n _ => n = l.n + 1
  | .gate false n _ k v => n = l.n + 1 ∧ look l.shift.rm l.n k = some v
  | _ => False

/-- Invariant of the executions of one `insertAll()` call on the buffer `l`: before
`shift()` nothing has changed and no task runs; after it the bucket `rm[l.n]` is what
`shift()` made of it and every task was started with the generation number `l.n + 1` for
an entry of that bucket. -/
def PassInv (l : buffer) (s : LoaderState) : Prop :=
  (s.buffer = l ∧ s.tasks = [] ∧
    ((s.main = .next ∧ s.program = [.insertAll]) ∨
      (s.main = .shift false ∧ s.program = []))) ∨
  (s.program = [] ∧ passMain l s.main ∧ s.buffer.n = l.n + 1 ∧
    s.buffer.rm.lookup l.n = l.shift.rm.lookup l.n ∧
    ∀ e ∈ s.tasks, e.1.n = l.n + 1 ∧ look l.shift.rm l.n e.1.k = some e.1.v)

/-! ## Example states -/

/-- A segment record as `newFile` builds it for `"20160101-ds-tbl"`, at address `addr`. -/
def exampleSegment (addr : Nat) : file :=
  { addr := addr, name := "20160101-ds-tbl", datasetID := "ds", tableID := "tbl",
    bufr := none, gzip := [], bufw := [], osFile := [] }

/-- A buffer at generation 0 whose active bucket holds one segment. -/
def oneSegmentBuffer : buffer :=
  { rm := ∅, wm := AList.insert 0 (AList.insert "20160101-ds-tbl" (exampleSegment 0) ∅) ∅,
    n := 0 }

/-- The buffer after `writer("20160101-ds-tbl")`, `shift()` and a second
`writer("20160101-ds-tbl")`: generation 0 is sealed with the first segment, generation 1
is active with the second one. -/
def resealedBuffer : buffer :=
  { rm := AList.insert 0 (AList.insert "20160101-ds-tbl" (exampleSegment 0) ∅) ∅,
    wm := AList.insert 1 (AList.insert "20160101-ds-tbl" (exampleSegment 1) ∅)
            (AList.insert 0 ∅ ∅),
    n := 1 }

/-- The schedule that lets `Close` run to its end before the task it started runs: nine
steps of `Close`, then two steps of the task. -/
def closeFirst : List Turn :=
  [.main 0, .main 0, .main 0, .main 0, .main 0, .main 0, .main 0, .main 0, .main 0,
   .task 0, .task 0]

/-- The schedule of one `insertAll` call that starts one task and lets it finish. -/
def passThenTask : List Turn :=
  [.main 0, .main 0, .main 0, .main 0, .main 0, .main 0,
   .task 0, .task 0, .task 0, .task 0]

/-- The calls `writer(k)`, `insertAll()`, `writer(k)`, `insertAll()` for one name `k`. -/
def twoPasses : List Call :=
  [.writer "20160101-ds-tbl" true, .insertAll, .writer "20160101-ds-tbl" true, .insertAll]

/-- The schedule for `twoPasses` in which the task of the first pass runs to its end
after the second pass has sealed its generation and before the second pass starts its
loop.  Ten steps of the calls (up to and with the second `shift()`), four steps of the
task, then the rest of the second pass. -/
def evictBeforeLoop : List Turn :=
  [.main 0, .main 0, .main 0, .main 0, .main 0, .main 0, .main 0, .main 0, .main 0,
   .main 0, .task 0, .task 0, .task 0, .task 0, .main 0, .main 0, .main 0]

/-- The calls `writer(a)`, `writer(b)`, `insertAll()`, made twice, for two names. -/
def twoNamesTwice : List Call :=
  [.writer "20160101-ds-a" true, .writer "20160101-ds-b" true, .insertAll,
   .writer "20160101-ds-a" true, .writer "20160101-ds-b" true, .insertAll]

/-- The schedule for `twoNamesTwice`, with one job slot, in which the loop of the second
pass has reached the entry of `a` and waits at the gate for the slot the second task of
the first pass holds, while that task runs to its end.  Fifteen steps for the first pass
(its first task finishes while the loop waits for the slot), seven steps up to the gate
of the second pass, four steps of the second task of the first pass, then the rest of
the second pass. -/
def evictAtGate : List Turn :=
  [.main 0, .main 0, .main 0, .main 0, .main 0, .main 0, .main 0, .main 0, .main 0,
   .task 0, .task 0, .task 0, .task 0, .main 0, .main 0,
   .main 0, .main 0, .main 0, .main 0, .main 0, .main 0, .main 0,
   .task 1, .task 1, .task 1, .task 1,
   .main 0, .main 0, .main 0]

/-- The name of the entry the loop holds while it stands at the gate. -/
def MainPc.gateName : MainPc → Option String
  | .gate _ _ _ k _ => some k
  | _ => none

/-! ## Lemmas on the two-level map -/

theorem look_ensureBucket (m : GenMap) (g k : Int) (name : String) :
    look (ensureBucket m g) k name = look m k name := by
  unfold ensureBucket
  split
  · rename_i h
    by_cases hk : k = g
    · subst hk
      rw [Option.isNone_iff_eq_none] at h
      simp [look, h]
    · simp [look, AList.lookup_insert_ne hk]
  · rfl

theorem lookup_ensureBucket_ne (m : GenMap) {g k : Int} (hk : k ≠ g) :
    (ensureBucket m g).lookup k = m.lookup k := by
  unfold ensureBucket
  split
  · exact AList.lookup_insert_ne hk
  · rfl

theorem lookup_ensureBucket_self (m : GenMap) (g : Int) :
    ∃ b, (ensureBucket m g).lookup g = some b := by
  unfold ensureBucket
  split
  · exact ⟨∅, AList.lookup_insert m⟩
  · rename_i h
    cases hb : m.lookup g with
    | none => simp [hb] at h
    | some b => exact ⟨b, rfl⟩

theorem look_assign (m : GenMap) (g k : Int) (a name : String) (v : file)
    (h : ∃ b, m.lookup g = some b) :
    look (assign m g a v) k name = if k = g ∧ name = a then some v else look m k name := by
  obtain ⟨b, hb⟩ := h
  unfold assign
  rw [hb]
  by_cases hk : k = g
  · subst hk
    by_cases hn : name = a
    · subst hn
      simp [look]
    · simp [look, hn, hb, AList.lookup_insert_ne hn]
  · simp [look, hk, AList.lookup_insert_ne hk]

theorem lookup_assign_ne (m : GenMap) {g k : Int} (a : String) (v : file) (hk : k ≠ g) :
    (assign m g a v).lookup k = m.lookup k := by
  unfold assign
  split
  · exact AList.lookup_insert_ne hk
  · rfl

theorem look_assign_ensure (m : GenMap) (g k : Int) (a name : String) (v : file) :
    look (assign (ensureBucket m g) g a v) k name =
      if k = g ∧ name = a then some v else look m k name := by
  rw [look_assign _ _ _ _ _ _ (lookup_ensureBucket_self m g), look_ensureBucket]

theorem lookup_assign_ensure_ne (m : GenMap) {g k : Int} (a : String) (v : file)
    (hk : k ≠ g) : (assign (ensureBucket m g) g a v).lookup k = m.lookup k := by
  rw [lookup_assign_ne _ _ _ hk, lookup_ensureBucket_ne _ hk]

theorem look_deleteKey (m : GenMap) (g k : Int) (a name : String) :
    look (deleteKey m g a) k name = if k = g ∧ name = a then none else look m k name := by
  unfold deleteKey
  cases hb : m.lookup g with
  | none =>
    by_cases hk : k = g
    · subst hk
      simp [look, hb]
    · simp [hk]
  | some b =>
    by_cases hk : k = g
    · subst hk
      by_cases hn : name = a
      · subst hn
        simp [look]
      · simp [look, hn, hb, AList.lookup_erase_ne hn]
    · simp [look, hk, AList.lookup_insert_ne hk]

theorem lookup_deleteKey_ne (m : GenMap) {g k : Int} (a : String) (hk : k ≠ g) :
    (deleteKey m g a).lookup k = m.lookup k := by
  unfold deleteKey
  split
  · exact AList.lookup_insert_ne hk
  · rfl

theorem dlookup_rangeOf (m : GenMap) (g : Int) (name : String) :
    List.dlookup name (rangeOf m g) = look m g name := by
  unfold rangeOf entriesOf look
  cases m.lookup g with
  | none => rfl
  | some b => rfl

theorem nodupKeys_entriesOf (o : Option Bucket) : (entriesOf o).NodupKeys := by
  cases o with
  | none => exact List.nodupKeys_nil
  | some b => exact b.nodupKeys

theorem mem_entriesOf_lookup (m : GenMap) (g : Int) (name : String) (f : file) :
    Sigma.mk name f ∈ entriesOf (m.lookup g) ↔ look m g name = some f := by
  unfold look entriesOf
  cases m.lookup g with
  | none => simp
  | some b =>
    simp only [Option.some_bind]
    rw [← AList.mem_lookup_iff]
    rfl

/-! ## The loop of `shift` -/

theorem fold_shiftStep_rm (g : Int) (es : List (Sigma (fun _ : String => file)))
    (hnd : es.NodupKeys) (s : GenMap × GenMap) (k : Int) (name : String) :
    look (es.foldl (shiftStep g) s).1 k name =
      if k = g then (List.dlookup name es).or (look s.1 g name) else look s.1 k name := by
  induction es generalizing s with
  | nil => by_cases hk : k = g <;> simp [hk]
  | cons e es ih =>
    obtain ⟨hne, hnd2⟩ := List.nodupKeys_cons.mp hnd
    rw [List.foldl_cons, ih hnd2]
    obtain ⟨a, v⟩ := e
    simp only [shiftStep]
    by_cases hk : k = g
    · subst hk
      simp only [if_true, look_assign_ensure, true_and]
      by_cases hn : name = a
      · subst hn
        have hnone : List.dlookup name es = none := List.dlookup_eq_none.mpr hne
        simp [hnone, List.dlookup_cons_eq]
      · rw [List.dlookup_cons_ne _ _ hn]
        simp [hn]
    · simp only [hk, if_false, look_assign_ensure, false_and]

theorem fold_shiftStep_wm (g : Int) (es : List (Sigma (fun _ : String => file)))
    (s : GenMap × GenMap) (k : Int) (name : String) :
    look (es.foldl (shiftStep g) s).2 k name =
      if k = g ∧ name ∈ es.keys then none else look s.2 k name := by
  induction es generalizing s with
  | nil => simp
  | cons e es ih =>
    rw [List.foldl_cons, ih]
    obtain ⟨a, v⟩ := e
    simp only [shiftStep, look_deleteKey, List.keys_cons, List.mem_cons]
    by_cases hk : k = g
    · by_cases hn : name = a
      · simp [hk, hn]
      · by_cases hm : name ∈ es.keys <;> simp [hk, hn, hm]
    · simp [hk]

theorem fold_shiftStep_lookup_ne (g : Int) (es : List (Sigma (fun _ : String => file)))
    (s : GenMap × GenMap) {k : Int} (hk : k ≠ g) :
    (es.foldl (shiftStep g) s).1.lookup k = s.1.lookup k ∧
      (es.foldl (shiftStep g) s).2.lookup k = s.2.lookup k := by
  induction es generalizing s with
  | nil => exact ⟨rfl, rfl⟩
  | cons e es ih =>
    rw [List.foldl_cons]
    obtain ⟨h1, h2⟩ := ih (shiftStep g s e)
    rw [h1, h2]
    exact ⟨lookup_assign_ensure_ne _ _ _ hk, lookup_deleteKey_ne _ _ hk⟩

theorem look_shift_rm (l : buffer) (k : Int) (name : String) :
    look l.shift.rm k name =
      if k = l.n then (look l.wm l.n name).or (look l.rm l.n name) else look l.rm k name := by
  unfold buffer.shift
  simp only
  rw [fold_shiftStep_rm l.n (rangeOf l.wm l.n) (nodupKeys_entriesOf _), dlookup_rangeOf]

theorem look_shift_wm (l : buffer) (k : Int) (name : String) :
    look l.shift.wm k name = if k = l.n then none else look l.wm k name := by
  unfold buffer.shift
  simp only
  rw [fold_shiftStep_wm]
  by_cases hk : k = l.n
  · subst hk
    by_cases hm : name ∈ (rangeOf l.wm l.n).keys
    · simp [hm]
    · have h := (List.dlookup_eq_none (l := rangeOf l.wm l.n)).mpr hm
      rw [dlookup_rangeOf] at h
      simp [hm, h]
  · simp [hk]

theorem lookup_shift_ne (l : buffer) {k : Int} (hk : k ≠ l.n) :
    l.shift.rm.lookup k = l.rm.lookup k ∧ l.shift.wm.lookup k = l.wm.lookup k := by
  unfold buffer.shift
  exact fold_shiftStep_lookup_ne l.n _ _ hk

theorem shift_n (l : buffer) : l.shift.n = l.n + 1 := rfl

theorem entriesOf_eq_nil (m : GenMap) (g : Int) (h : ∀ name, look m g name = none) :
    entriesOf (m.lookup g) = [] := by
  cases he : entriesOf (m.lookup g) with
  | nil => rfl
  | cons e es =>
    exfalso
    obtain ⟨a, v⟩ := e
    have hm : Sigma.mk a v ∈ entriesOf (m.lookup g) := by rw [he]; exact List.mem_cons_self _ _
    rw [mem_entriesOf_lookup, h a] at hm
    exact Option.noConfusion hm

/-! ## `readers` -/

theorem readers_shift_same (l : buffer) : l.shift.readers l.n = l.readers l.n := by
  unfold buffer.readers
  split
  · rfl
  · exact (lookup_shift_ne l (by omega)).1

/-- C4 (the code at the failing input): on a fresh buffer, after one successful
`writer("time-ds-shift")` call and one `shift()`, `iter()` is 1 but `readers(0)` is the
nil map and `len(readers(0))` is 0, not 1; the sealed segment is what `readers(1)`
returns.  For every buffer, `readers(g)` called with the generation `g` just sealed
returns what it returned before the `shift()`. -/
theorem readers_of_sealed_generation :
    (newBuffer.writer 0 true "time-ds-shift").map
        (fun r => (r.2.1.shift.iter, r.2.1.shift.readers 0, mapLen (r.2.1.shift.readers 0),
          mapLen (r.2.1.shift.readers 1))) = .ok (1, none, 0, 1) ∧
    ∀ l : buffer, l.shift.readers l.n = l.readers l.n :=
  ⟨by decide, readers_shift_same⟩

/-! ## `writer` -/

theorem newFile_addr {addr : Nat} {openOk : Bool} {name : String} {f : file}
    (h : newFile addr openOk name = .ok f) : f.addr = addr ∧ f.bufr = none := by
  unfold newFile at h
  simp only at h
  split at h
  · split at h
    · cases h
      exact ⟨rfl, rfl⟩
    · cases h
  · cases h

theorem writer_ok_cases {l l1 : buffer} {next next1 : Nat} {openOk : Bool} {name : String}
    {f : file} (h : l.writer next openOk name = .ok (f, l1, next1)) :
    (look l.wm l.n name = some f ∧ l1 = l ∧ next1 = next) ∨
    (look l.wm l.n name = none ∧ f.addr = next ∧
      l1 = { l with wm := assign (ensureBucket l.wm l.n) l.n name f } ∧ next1 = next + 1) := by
  unfold buffer.writer buffer.writerLookup at h
  cases hl : look l.wm l.n name with
  | some f0 =>
    rw [hl] at h
    simp only [Except.ok.injEq, Prod.mk.injEq] at h
    obtain ⟨h1, h2, h3⟩ := h
    subst h1 h2 h3
    exact Or.inl ⟨rfl, rfl, rfl⟩
  | none =>
    rw [hl] at h
    simp only [buffer.writerCreate] at h
    cases hf : newFile next openOk name with
    | error e => rw [hf] at h; cases h
    | ok f0 =>
      rw [hf] at h
      simp only [Except.ok.injEq, Prod.mk.injEq] at h
      obtain ⟨h1, h2, h3⟩ := h
      subst h1 h2 h3
      exact Or.inr ⟨rfl, (newFile_addr hf).1, rfl, rfl⟩

theorem writer_registers {l l1 : buffer} {next next1 : Nat} {openOk : Bool} {name : String}
    {f : file} (h : l.writer next openOk name = .ok (f, l1, next1)) :
    l1.n = l.n ∧ l1.rm = l.rm ∧ look l1.wm l1.n name = some f := by
  rcases writer_ok_cases h with ⟨h1, h2, _⟩ | ⟨_, _, h2, _⟩
  · subst h2
    exact ⟨rfl, rfl, h1⟩
  · subst h2
    refine ⟨rfl, rfl, ?_⟩
    simp only
    rw [look_assign_ensure]
    simp

theorem writer_total (l : buffer) (next : Nat) (openOk : Bool) (name : String)
    (h : ∃ f0, newFile next openOk name = .ok f0) :
    ∃ r, l.writer next openOk name = .ok r := by
  obtain ⟨f0, hf⟩ := h
  unfold buffer.writer
  cases l.writerLookup name with
  | some f => exact ⟨_, rfl⟩
  | none =>
    simp only [buffer.writerCreate, hf]
    exact ⟨_, rfl⟩

/-- C5: for every buffer state and every name, a `writer(name)` call returns a segment
whenever `newFile` succeeds for the name, and when a `writer(name)` call returns a
segment, a second `writer(name)` call made right after it (whatever `os.OpenFile` would
do then) returns the same segment and leaves the buffer (`rm`, `wm`, the counter) and the
allocator unchanged, and the active generation maps the name to that one segment. -/
theorem writer_idempotent (l : buffer) (next : Nat) (ok1 ok2 : Bool) (name : String) :
    ((∃ f0, newFile next ok1 name = .ok f0) → ∃ r, l.writer next ok1 name = .ok r) ∧
    ∀ (f : file) (l1 : buffer) (next1 : Nat), l.writer next ok1 name = .ok (f, l1, next1) →
      l1.writer next1 ok2 name = .ok (f, l1, next1) ∧ look l1.wm l1.n name = some f := by
  refine ⟨writer_total l next ok1 name, ?_⟩
  intro f l1 next1 h
  have hr := (writer_registers h).2.2
  refine ⟨?_, hr⟩
  unfold buffer.writer buffer.writerLookup
  rw [hr]

/-- Witness of `writer_idempotent`: the first call on a fresh buffer creates the segment
at address 0, and the second call, for which `os.OpenFile` would fail, returns it. -/
theorem writer_idempotent_witness :
    (newBuffer.writer 0 true "20160101-ds-tbl" =
        .ok (exampleSegment 0, oneSegmentBuffer, 1)) ∧
    (oneSegmentBuffer.writer 1 false "20160101-ds-tbl" =
        .ok (exampleSegment 0, oneSegmentBuffer, 1) ∧
      look oneSegmentBuffer.wm oneSegmentBuffer.n "20160101-ds-tbl" =
        some (exampleSegment 0)) :=
  ⟨by decide, (writer_idempotent newBuffer 0 true false "20160101-ds-tbl").2
    (exampleSegment 0) oneSegmentBuffer 1 (by decide)⟩

/-! ## Segment files -/

theorem foldl_Write_bufr (encode : List Nat → List Nat) (payloads : List (List Nat))
    (f : file) : (payloads.foldl (file.Write encode) f).bufr = f.bufr := by
  induction payloads generalizing f with
  | nil => rfl
  | cons p ps ih => rw [List.foldl_cons, ih]; rfl

/-- C7 (what the code does): for every segment `newFile` returns and every sequence of
`Write` calls on it followed by `Flush()`, `Len()` faults with a nil dereference, because
`newFile` leaves `bufr` nil and neither `Write` nor `Flush` assigns it; the same holds for
the `f.Flush()`, `f.Len()` pair at the start of `insert`. -/
theorem Len_after_newFile_faults (addr : Nat) (openOk : Bool) (name : String) (f : file)
    (h : newFile addr openOk name = .ok f) (encode : List Nat → List Nat)
    (payloads : List (List Nat)) :
    (payloads.foldl (file.Write encode) f).Flush.Len = .error .nilDereference ∧
    Loader.insertSize (payloads.foldl (file.Write encode) f) = .error .nilDereference := by
  have hb : (payloads.foldl (file.Write encode) f).Flush.bufr = none := by
    show (payloads.foldl (file.Write encode) f).bufr = none
    rw [foldl_Write_bufr, (newFile_addr h).2]
  refine ⟨?_, ?_⟩ <;> simp only [Loader.insertSize, file.Len, hb, bytesBufferLen]

/-- Witness of `Len_after_newFile_faults`: the segment of `"20160101-ds-tbl"` after one
payload of three bytes. -/
theorem Len_after_newFile_faults_witness :
    newFile 0 true "20160101-ds-tbl" = .ok (exampleSegment 0) ∧
    (([[1, 2, 3]].foldl (file.Write id) (exampleSegment 0)).Flush.Len =
        .error .nilDereference ∧
      Loader.insertSize ([[1, 2, 3]].foldl (file.Write id) (exampleSegment 0)) =
        .error .nilDereference) :=
  ⟨by decide, Len_after_newFile_faults 0 true "20160101-ds-tbl" (exampleSegment 0)
    (by decide) id [[1, 2, 3]]⟩

/-- C6 (the code at the failing input): for the row with dataset `"my-ds"` and table
`"tbl"` and the window stamp 20160101, `Loader.name` builds `"20160101-my-ds-tbl"` and the
segment `newFile` creates for it has `datasetID = "my"` and `tableID = "ds"`, also under
the directory `./dir-with-dashes`; for the dataset `"ds"` and the table `"my-table"` the
segment has `tableID = "my"`. -/
theorem name_roundtrip_fails_on_dash :
    Loader.name 20160101 ⟨"my-ds", "tbl"⟩ = "20160101-my-ds-tbl" ∧
    (newFile 0 true (Loader.name 20160101 ⟨"my-ds", "tbl"⟩)).map
        (fun f => (f.datasetID, f.tableID)) = .ok ("my", "ds") ∧
    (newFile 0 true ("./dir-with-dashes/" ++ Loader.name 20160101 ⟨"my-ds", "tbl"⟩)).map
        (fun f => (f.datasetID, f.tableID)) = .ok ("my", "ds") ∧
    (newFile 0 true (Loader.name 20160101 ⟨"ds", "my-table"⟩)).map
        (fun f => (f.datasetID, f.tableID)) = .ok ("ds", "my") := by
  decide

/-! ## Sequential executions: the invariant -/

theorem Inv_init : Sys.init.Inv where
  n_nonneg := le_refl _
  rm_lt := by intro k name f h; simp [Sys.init, newBuffer, look] at h
  wm_eq := by intro k name f h; simp [Sys.init, newBuffer, look] at h
  wm_rm := by intro k1 k2 a b f1 f2 h; simp [Sys.init, newBuffer, look] at h

theorem look_shift_wm_none (l : buffer) (hwm : ∀ k name f, look l.wm k name = some f → k = l.n)
    (k : Int) (name : String) : look l.shift.wm k name = none := by
  rw [look_shift_wm]
  split
  · rfl
  · rename_i hk
    cases h : look l.wm k name with
    | none => rfl
    | some f => exact absurd (hwm k name f h) hk

theorem look_shift_rm_sealed (l : buffer)
    (hrm : ∀ k name f, look l.rm k name = some f → k < l.n) (name : String) :
    look l.shift.rm l.n name = look l.wm l.n name := by
  rw [look_shift_rm, if_pos rfl]
  cases h : look l.rm l.n name with
  | none => exact Option.or_none
  | some f => exact absurd (hrm _ _ _ h) (lt_irrefl _)

theorem Inv_shift {s : Sys} (h : s.Inv) : (Sys.mk s.buf.shift s.next).Inv where
  n_nonneg := by show 0 ≤ s.buf.n + 1; have := h.n_nonneg; omega
  rm_lt := by
    intro k name f hf
    show k < s.buf.n + 1 ∧ f.addr < s.next
    simp only at hf
    rw [look_shift_rm] at hf
    split at hf
    · rename_i hk
      rcases Option.or_eq_some.mp hf with h1 | ⟨_, h1⟩
      · exact ⟨by omega, (h.wm_eq _ _ _ h1).2⟩
      · exact ⟨by omega, (h.rm_lt _ _ _ h1).2⟩
    · have := h.rm_lt _ _ _ hf
      exact ⟨by omega, this.2⟩
  wm_eq := by
    intro k name f hf
    simp only at hf
    rw [look_shift_wm_none _ (fun k name f hf => (h.wm_eq k name f hf).1)] at hf
    cases hf
  wm_rm := by
    intro k1 k2 a b f1 f2 hf
    simp only at hf
    rw [look_shift_wm_none _ (fun k name f hf => (h.wm_eq k name f hf).1)] at hf
    cases hf

theorem Inv_remove {s : Sys} (h : s.Inv) (n : Int) (name : String) :
    (Sys.mk (s.buf.remove n name) s.next).Inv where
  n_nonneg := h.n_nonneg
  rm_lt := by
    intro k nm f hf
    simp only [buffer.remove, look_deleteKey] at hf
    split at hf
    · cases hf
    · exact h.rm_lt _ _ _ hf
  wm_eq := h.wm_eq
  wm_rm := by
    intro k1 k2 a b f1 f2 h1 h2
    simp only [buffer.remove, look_deleteKey] at h2
    split at h2
    · cases h2
    · exact h.wm_rm _ _ _ _ _ _ h1 h2

theorem step_writer (s : Sys) (name : String) (openOk : Bool) :
    s.step (.writer name openOk) =
      match s.buf.writer s.next openOk name with
      | .ok r => { s with buf := r.2.1, next := r.2.2 }
      | .error _ => s := rfl

theorem Inv_writer {s : Sys} (h : s.Inv) (name : String) (openOk : Bool) :
    (s.step (.writer name openOk)).Inv := by
  rw [step_writer]
  cases hw : s.buf.writer s.next openOk name with
  | error e => exact h
  | ok r =>
    obtain ⟨f, l1, next1⟩ := r
    rcases writer_ok_cases hw with ⟨_, h2, h3⟩ | ⟨hmiss, haddr, h2, h3⟩
    · subst h2 h3
      exact h
    · subst h2 h3
      have hlook : ∀ k nm, look (assign (ensureBucket s.buf.wm s.buf.n) s.buf.n name f) k nm =
          if k = s.buf.n ∧ nm = name then some f else look s.buf.wm k nm :=
        fun k nm => look_assign_ensure _ _ _ _ _ _
      refine ⟨h.n_nonneg, ?_, ?_, ?_⟩
      · intro k nm g hg
        have := h.rm_lt k nm g hg
        exact ⟨this.1, by show g.addr < s.next + 1; omega⟩
      · intro k nm g hg
        simp only [hlook] at hg
        show k = s.buf.n ∧ g.addr < s.next + 1
        split at hg
        · rename_i hk
          cases hg
          exact ⟨hk.1, by omega⟩
        · have := h.wm_eq k nm g hg
          exact ⟨this.1, by omega⟩
      · intro k1 k2 a b f1 f2 h1 h2
        simp only [hlook] at h1
        have hlt := (h.rm_lt _ _ _ h2).2
        split at h1
        · cases h1
          omega
        · exact h.wm_rm _ _ _ _ _ _ h1 h2

theorem Inv_step {s : Sys} (h : s.Inv) (op : Op) : (s.step op).Inv := by
  cases op with
  | writer name openOk => exact Inv_writer h name openOk
  | shift => exact Inv_shift h
  | remove n name => exact Inv_remove h n name
  | insertAll => exact Inv_shift h

theorem Inv_foldl (ops : List Op) {s : Sys} (h : s.Inv) : (ops.foldl Sys.step s).Inv := by
  induction ops generalizing s with
  | nil => exact h
  | cons op ops ih => exact ih (Inv_step h op)

theorem Inv_run (ops : List Op) : (Sys.run ops).Inv :=
  Inv_foldl ops Inv_init

/-! ## `shift` -/

/-- C3: for every buffer state the calls `writer`, `shift`, `remove` (and `insertAll`)
reach from `newBuffer()`, with generation counter `g`: after `shift()` the entries of
`rm[g]` are exactly the (name, segment) entries `wm[g]` held before the call together
with the entries `rm[g]` already had, a `range` over `wm[g]` finds no entry, every other
generation bucket of `rm` and of `wm` is unchanged, and `iter()` returns `g + 1`. -/
theorem shift_moves_active_to_sealed (ops : List Op) :
    (∀ name f, look (Sys.run ops).buf.shift.rm (Sys.run ops).buf.n name = some f ↔
      (look (Sys.run ops).buf.wm (Sys.run ops).buf.n name = some f ∨
        look (Sys.run ops).buf.rm (Sys.run ops).buf.n name = some f)) ∧
    entriesOf ((Sys.run ops).buf.shift.wm.lookup (Sys.run ops).buf.n) = [] ∧
    (∀ k, k ≠ (Sys.run ops).buf.n →
      (Sys.run ops).buf.shift.rm.lookup k = (Sys.run ops).buf.rm.lookup k ∧
      (Sys.run ops).buf.shift.wm.lookup k = (Sys.run ops).buf.wm.lookup k) ∧
    (Sys.run ops).buf.shift.iter = (Sys.run ops).buf.n + 1 := by
  have h := Inv_run ops
  refine ⟨?_, ?_, ?_, rfl⟩
  · intro name f
    rw [look_shift_rm_sealed _ (fun k name f hf => (h.rm_lt k name f hf).1)]
    constructor
    · exact Or.inl
    · rintro (h1 | h1)
      · exact h1
      · exact absurd (h.rm_lt _ _ _ h1).1 (lt_irrefl _)
  · apply entriesOf_eq_nil
    intro name
    rw [look_shift_wm, if_pos rfl]
  · intro k hk
    exact lookup_shift_ne _ hk

/-- Witness of `shift_moves_active_to_sealed`: after one `writer` call, generation 1
is another generation than the one `shift()` seals and its buckets are unchanged. -/
theorem shift_moves_active_to_sealed_witness :
    (1 : Int) ≠ (Sys.run [.writer "20160101-ds-tbl" true]).buf.n ∧
    ((Sys.run [.writer "20160101-ds-tbl" true]).buf.shift.rm.lookup 1 =
        (Sys.run [.writer "20160101-ds-tbl" true]).buf.rm.lookup 1 ∧
      (Sys.run [.writer "20160101-ds-tbl" true]).buf.shift.wm.lookup 1 =
        (Sys.run [.writer "20160101-ds-tbl" true]).buf.wm.lookup 1) :=
  ⟨by decide,
    (shift_moves_active_to_sealed [.writer "20160101-ds-tbl" true]).2.2.1 1 (by decide)⟩

/-! ## Writes after a seal -/

theorem noSeal_step_n (s : Sys) (op : Op) (h : op.noSeal = true) :
    (s.step op).buf.n = s.buf.n := by
  cases op with
  | writer name openOk =>
    rw [step_writer]
    cases hw : s.buf.writer s.next openOk name with
    | error e => rfl
    | ok r =>
      obtain ⟨f, l1, next1⟩ := r
      exact (writer_registers hw).1
  | shift => cases h
  | remove n name => rfl
  | insertAll => cases h

theorem noSeal_foldl_n (later : List Op) (s : Sys) (h : ∀ op ∈ later, op.noSeal = true) :
    (later.foldl Sys.step s).buf.n = s.buf.n := by
  induction later generalizing s with
  | nil => rfl
  | cons op ops ih =>
    rw [List.foldl_cons, ih _ (fun o ho => h o (List.mem_cons_of_mem _ ho)),
      noSeal_step_n s op (h op (List.mem_cons_self _ _))]

theorem writer_not_sealed {s : Sys} (h : s.Inv) {name : String} {openOk : Bool} {f : file}
    {l1 : buffer} {next1 : Nat} (hw : s.buf.writer s.next openOk name = .ok (f, l1, next1))
    (k : Int) (nm : String) (f2 : file) (h2 : look l1.rm k nm = some f2) :
    f2.addr ≠ f.addr := by
  rw [(writer_registers hw).2.1] at h2
  rcases writer_ok_cases hw with ⟨h1, _, _⟩ | ⟨_, haddr, _, _⟩
  · exact fun he => h.wm_rm _ _ _ _ _ _ h1 h2 he.symm
  · have := (h.rm_lt _ _ _ h2).2
    omega

/-- C1: for every buffer state reached from `newBuffer()` by `writer`, `shift`, `remove`
(and `insertAll`) calls with generation counter `g`, after `shift()` has sealed `g` and
after any further `writer` and `remove` calls: a `writer(name)` call returns a segment
whenever `newFile` succeeds for the name, and every `writer(name)` call that returns a
segment, for every name, leaves the counter at `g + 1`, has the segment registered under
that name in the active bucket `wm[g + 1]`, and returns a segment that no sealed bucket
`rm[k]` holds under any name. -/
theorem writer_after_seal (ops later : List Op) (hlater : ∀ op ∈ later, op.noSeal = true)
    (name : String) (openOk : Bool) :
    ((∃ f0, newFile (later.foldl Sys.step ((Sys.run ops).step .shift)).next openOk name
        = .ok f0) →
      ∃ r, (later.foldl Sys.step ((Sys.run ops).step .shift)).buf.writer
        (later.foldl Sys.step ((Sys.run ops).step .shift)).next openOk name = .ok r) ∧
    ∀ (f : file) (l1 : buffer) (next1 : Nat),
      (later.foldl Sys.step ((Sys.run ops).step .shift)).buf.writer
          (later.foldl Sys.step ((Sys.run ops).step .shift)).next openOk name
        = .ok (f, l1, next1) →
      l1.iter = (Sys.run ops).buf.n + 1 ∧
      look l1.wm ((Sys.run ops).buf.n + 1) name = some f ∧
      ∀ k nm f2, look l1.rm k nm = some f2 → f2.addr ≠ f.addr := by
  refine ⟨writer_total _ _ _ _, ?_⟩
  intro f l1 next1 h
  have hInv : (later.foldl Sys.step ((Sys.run ops).step .shift)).Inv :=
    Inv_foldl later (Inv_step (Inv_run ops) .shift)
  have hn : (later.foldl Sys.step ((Sys.run ops).step .shift)).buf.n
      = (Sys.run ops).buf.n + 1 := noSeal_foldl_n later _ hlater
  obtain ⟨h1, _, h3⟩ := writer_registers h
  have hl1 : l1.n = (Sys.run ops).buf.n + 1 := by rw [h1, hn]
  refine ⟨hl1, ?_, writer_not_sealed hInv h⟩
  rw [← hl1]
  exact h3

/-- Witness of `writer_after_seal`: `"20160101-ds-tbl"` is written in generation 0,
generation 0 is sealed, and the same name is written again. -/
theorem writer_after_seal_witness :
    (∀ op ∈ [Op.remove 5 "x"], op.noSeal = true) ∧
    (([Op.remove 5 "x"].foldl Sys.step
          ((Sys.run [.writer "20160101-ds-tbl" true]).step .shift)).buf.writer
        ([Op.remove 5 "x"].foldl Sys.step
          ((Sys.run [.writer "20160101-ds-tbl" true]).step .shift)).next true
        "20160101-ds-tbl" = .ok (exampleSegment 1, resealedBuffer, 2)) ∧
    (resealedBuffer.iter = (Sys.run [.writer "20160101-ds-tbl" true]).buf.n + 1 ∧
      look resealedBuffer.wm ((Sys.run [.writer "20160101-ds-tbl" true]).buf.n + 1)
        "20160101-ds-tbl" = some (exampleSegment 1) ∧
      ∀ k nm f2, look resealedBuffer.rm k nm = some f2 →
        f2.addr ≠ (exampleSegment 1).addr) :=
  ⟨by decide, by decide,
    (writer_after_seal [.writer "20160101-ds-tbl" true] [Op.remove 5 "x"] (by decide)
      "20160101-ds-tbl" true).2 (exampleSegment 1) resealedBuffer 2 (by decide)⟩

/-! ## One `insertAll` call and the tasks it starts -/

theorem getD_get?_mem {α : Type} (l : List α) (i : Nat) (d : α) (hd : d ∈ l) :
    (l.get? i).getD d ∈ l := by
  cases h : l.get? i with
  | none => exact hd
  | some a => exact List.get?_mem h

theorem look_of_mem_readers (b : buffer) (g : Int) (e : Sigma (fun _ : String => file))
    (h : e ∈ entriesOf (b.readers (g + 1))) : look b.rm g e.1 = some e.2 := by
  unfold buffer.readers at h
  split at h
  · cases h
  · have hg : g + 1 - 1 = g := by omega
    rw [hg] at h
    exact (mem_entriesOf_lookup b.rm g e.1 e.2).mp h

theorem look_congr {m1 m2 : GenMap} {g : Int} (h : m1.lookup g = m2.lookup g)
    (name : String) : look m1 g name = look m2 g name := by
  unfold look
  rw [h]

theorem taskStep_frame (backendOk : String → Bool) (s : LoaderState) (t : task)
    (pc : TaskPc) :
    (s.taskStep backendOk t pc).1.program = s.program ∧
    (s.taskStep backendOk t pc).1.main = s.main ∧
    (s.taskStep backendOk t pc).1.tasks = s.tasks ∧
    (s.taskStep backendOk t pc).1.MaxJobs = s.MaxJobs ∧
    (s.taskStep backendOk t pc).1.buffer.n = s.buffer.n ∧
    ∀ g, g ≠ t.n →
      (s.taskStep backendOk t pc).1.buffer.rm.lookup g = s.buffer.rm.lookup g := by
  cases pc with
  | insert => exact ⟨rfl, rfl, rfl, rfl, rfl, fun _ _ => rfl⟩
  | send b =>
    cases b <;> simp only [LoaderState.taskStep] <;> split <;>
      exact ⟨rfl, rfl, rfl, rfl, rfl, fun _ _ => rfl⟩
  | remove =>
    refine ⟨rfl, rfl, rfl, rfl, rfl, ?_⟩
    intro g hg
    exact lookup_deleteKey_ne _ _ hg
  | release => exact ⟨rfl, rfl, rfl, rfl, rfl, fun _ _ => rfl⟩
  | done => exact ⟨rfl, rfl, rfl, rfl, rfl, fun _ _ => rfl⟩
  | crashed => exact ⟨rfl, rfl, rfl, rfl, rfl, fun _ _ => rfl⟩

theorem PassInv_main (l : buffer) (s : LoaderState) (choice : Nat) (h : PassInv l s) :
    PassInv l (s.mainStep choice) := by
  unfold PassInv at h ⊢
  rcases h with ⟨hb, ht, (⟨hm, hp⟩ | ⟨hm, hp⟩)⟩ | ⟨hp, hm, hn, hrm, htasks⟩
  · left
    have hstep : s.mainStep choice = { s with program := [], main := .shift false } := by
      simp only [LoaderState.mainStep, hm, hp]
    rw [hstep]
    exact ⟨hb, ht, Or.inr ⟨rfl, rfl⟩⟩
  · right
    have hstep : s.mainStep choice = { s with buffer := s.buffer.shift, main := .iter false } := by
      simp only [LoaderState.mainStep, hm]
    rw [hstep]
    refine ⟨hp, trivial, ?_, ?_, ?_⟩
    · show s.buffer.shift.n = l.n + 1
      rw [hb]; rfl
    · show s.buffer.shift.rm.lookup l.n = l.shift.rm.lookup l.n
      rw [hb]
    · show ∀ e ∈ s.tasks, _
      rw [ht]
      intro e he
      cases he
  · right
    cases hpc : s.main with
    | next =>
      have hstep : s.mainStep choice = s := by
        simp only [LoaderState.mainStep, hpc, hp]
      rw [hstep, hpc]
      exact ⟨hp, trivial, hn, hrm, htasks⟩
    | tickerStop => rw [hpc] at hm; exact absurd hm id
    | closeInput => rw [hpc] at hm; exact absurd hm id
    | shift c => rw [hpc] at hm; exact absurd hm id
    | closeSuccesses => rw [hpc] at hm; exact absurd hm id
    | closeErrors => rw [hpc] at hm; exact absurd hm id
    | done => rw [hpc] at hm; exact absurd hm id
    | iter c =>
      rw [hpc] at hm
      cases c with
      | true => exact absurd hm id
      | false =>
        have hstep : s.mainStep choice = { s with main := .range false s.buffer.iter [] } := by
          simp only [LoaderState.mainStep, hpc]
        rw [hstep]
        exact ⟨hp, hn, hn, hrm, htasks⟩
    | range c n visited =>
      rw [hpc] at hm
      cases c with
      | true => exact absurd hm id
      | false =>
        have hn1 : n = l.n + 1 := hm
        cases hu : s.unvisited n visited with
        | nil =>
          have hstep : s.mainStep choice = { s with main := .next } := by
            simp only [LoaderState.mainStep, hpc, hu]
            rfl
          rw [hstep]
          exact ⟨hp, trivial, hn, hrm, htasks⟩
        | cons e0 es =>
          have hstep : s.mainStep choice =
              { s with main := (MainPc.gate false n
                  ((((e0 :: es).get? choice).getD e0).1 :: visited)
                  (((e0 :: es).get? choice).getD e0).1
                  (((e0 :: es).get? choice).getD e0).2) } := by
            simp only [LoaderState.mainStep, hpc, hu]
          rw [hstep]
          refine ⟨hp, ⟨hn1, ?_⟩, hn, hrm, htasks⟩
          have hmem : ((e0 :: es).get? choice).getD e0 ∈ s.unvisited n visited := by
            rw [hu]
            exact getD_get?_mem _ _ _ (List.mem_cons_self _ _)
          have hent := List.mem_of_mem_filter hmem
          rw [hn1] at hent
          rw [← look_congr hrm]
          exact look_of_mem_readers _ _ _ hent
    | gate c n visited k v =>
      rw [hpc] at hm
      cases c with
      | true => exact absurd hm id
      | false =>
        obtain ⟨hn1, hk⟩ := hm
        by_cases hj : s.jobSem < s.MaxJobs
        · have hstep : s.mainStep choice =
              { s with jobSem := s.jobSem + 1,
                       tasks := s.tasks ++ [({ n := n, k := k, v := v }, .insert)],
                       main := .range false n visited } := by
            simp only [LoaderState.mainStep, hpc, if_pos hj]
          rw [hstep]
          refine ⟨hp, hn1, hn, hrm, ?_⟩
          intro e he
          rcases List.mem_append.mp he with he | he
          · exact htasks e he
          · rw [List.mem_singleton] at he
            subst he
            exact ⟨hn1, hk⟩
        · have hstep : s.mainStep choice = s := by
            simp only [LoaderState.mainStep, hpc, if_neg hj]
          rw [hstep, hpc]
          exact ⟨hp, ⟨hn1, hk⟩, hn, hrm, htasks⟩

theorem PassInv_task (l : buffer) (backendOk : String → Bool) (s : LoaderState) (i : Nat)
    (h : PassInv l s) : PassInv l (s.step backendOk (.task i)) := by
  simp only [LoaderState.step]
  cases hget : s.tasks.get? i with
  | none => exact h
  | some e =>
    obtain ⟨t, pc⟩ := e
    simp only
    unfold PassInv at h ⊢
    rcases h with ⟨_, ht, _⟩ | ⟨hp, hm, hn, hrm, htasks⟩
    · rw [ht] at hget
      cases hget
    · right
      obtain ⟨f1, f2, f3, _, f5, f6⟩ := taskStep_frame backendOk s t pc
      have ht := htasks (t, pc) (List.get?_mem hget)
      refine ⟨by rw [f1]; exact hp, by rw [f2]; exact hm, by rw [f5]; exact hn, ?_, ?_⟩
      · rw [f6 l.n (by rw [ht.1]; omega)]
        exact hrm
      · intro e he
        rw [f3] at he
        rcases List.mem_or_eq_of_mem_set he with he | he
        · exact htasks e he
        · subst he
          exact ht

theorem PassInv_exec (l : buffer) (backendOk : String → Bool) (schedule : List Turn)
    (s : LoaderState) (h : PassInv l s) :
    PassInv l (LoaderState.exec backendOk s schedule) := by
  induction schedule generalizing s with
  | nil => exact h
  | cons turn rest ih =>
    apply ih
    cases turn with
    | main choice => exact PassInv_main l s choice h
    | task i => exact PassInv_task l backendOk s i h

/-- C2 (what the code does): for every buffer state with generation counter `g`, every
size of the gate, every outcome of `insert` and every interleaving of one `insertAll()`
call with the tasks it starts, at every moment of the execution and so also when every
task has finished: each task was started with the generation number `g + 1`, and the
sealed bucket `rm[g]` still maps the name of each task started to its segment, because
the tasks call `remove(g + 1, k)`, which deletes from `rm[g + 1]`. -/
theorem insertAll_keeps_dispatched_entries (l : buffer) (next maxJobs : Nat)
    (backendOk : String → Bool) (schedule : List Turn) (e : task × TaskPc)
    (he : e ∈ (LoaderState.exec backendOk
      (LoaderState.calls l next maxJobs [.insertAll]) schedule).tasks) :
    e.1.n = l.n + 1 ∧
    look (LoaderState.exec backendOk
      (LoaderState.calls l next maxJobs [.insertAll]) schedule).buffer.rm l.n e.1.k
      = some e.1.v := by
  have h := PassInv_exec l backendOk schedule
    (LoaderState.calls l next maxJobs [.insertAll])
    (Or.inl ⟨rfl, rfl, Or.inl ⟨rfl, rfl⟩⟩)
  unfold PassInv at h
  rcases h with ⟨_, ht, _⟩ | ⟨_, _, _, hrm, htasks⟩
  · rw [ht] at he
    cases he
  · exact ⟨(htasks e he).1, by rw [look_congr hrm]; exact (htasks e he).2⟩

/-- Witness of `insertAll_keeps_dispatched_entries`: the pass on `oneSegmentBuffer`
starts one task, the task runs to its end, and the entry is still in `rm[0]`. -/
theorem insertAll_keeps_dispatched_entries_witness :
    (LoaderState.exec (fun _ => true)
        (LoaderState.calls oneSegmentBuffer 1 1 [.insertAll]) passThenTask).tasks =
      [(⟨1, "20160101-ds-tbl", exampleSegment 0⟩, .done)] ∧
    ((1 : Int) = oneSegmentBuffer.n + 1 ∧
      look (LoaderState.exec (fun _ => true)
        (LoaderState.calls oneSegmentBuffer 1 1 [.insertAll]) passThenTask).buffer.rm
        oneSegmentBuffer.n "20160101-ds-tbl" = some (exampleSegment 0)) :=
  ⟨by decide, insertAll_keeps_dispatched_entries oneSegmentBuffer 1 1 (fun _ => true)
    passThenTask (⟨1, "20160101-ds-tbl", exampleSegment 0⟩, .done) (by decide)⟩

/-! ## A pass and the tasks of the pass before it -/

theorem mainStep_tasks (s : LoaderState) (choice : Nat) :
    (s.mainStep choice).MaxJobs = s.MaxJobs ∧
    ((s.mainStep choice).tasks = s.tasks ∨ s.jobSem < s.MaxJobs) := by
  unfold LoaderState.mainStep
  split
  · split
    · exact ⟨rfl, Or.inl rfl⟩
    · split <;> exact ⟨rfl, Or.inl rfl⟩
    · exact ⟨rfl, Or.inl rfl⟩
  · exact ⟨rfl, Or.inl rfl⟩
  · exact ⟨rfl, Or.inl rfl⟩
  · exact ⟨rfl, Or.inl rfl⟩
  · exact ⟨rfl, Or.inl rfl⟩
  · split <;> exact ⟨rfl, Or.inl rfl⟩
  · split
    · rename_i hj
      exact ⟨rfl, Or.inr hj⟩
    · exact ⟨rfl, Or.inl rfl⟩
  · exact ⟨rfl, Or.inl rfl⟩
  · exact ⟨rfl, Or.inl rfl⟩
  · exact ⟨rfl, Or.inl rfl⟩

theorem gate_of_size_zero_frame (backendOk : String → Bool) (s : LoaderState)
    (turn : Turn) (hm : s.MaxJobs = 0) (ht : s.tasks = []) :
    (s.step backendOk turn).MaxJobs = 0 ∧ (s.step backendOk turn).tasks = [] := by
  cases turn with
  | task i =>
    have hstep : s.step backendOk (.task i) = s := by
      simp only [LoaderState.step, ht, List.get?_nil]
    rw [hstep]
    exact ⟨hm, ht⟩
  | main choice =>
    obtain ⟨h1, h2⟩ := mainStep_tasks s choice
    refine ⟨by show (s.mainStep choice).MaxJobs = 0; rw [h1, hm], ?_⟩
    rcases h2 with h2 | h2
    · show (s.mainStep choice).tasks = []
      rw [h2, ht]
    · rw [hm] at h2
      exact absurd h2 (Nat.not_lt_zero _)

theorem gate_of_size_zero_starts_no_task (backendOk : String → Bool) (schedule : List Turn)
    (s : LoaderState) (hm : s.MaxJobs = 0) (ht : s.tasks = []) :
    (LoaderState.exec backendOk s schedule).tasks = [] := by
  induction schedule generalizing s with
  | nil => exact ht
  | cons turn rest ih =>
    obtain ⟨h1, h2⟩ := gate_of_size_zero_frame backendOk s turn hm ht
    exact ih _ h1 h2

/-- C8 (the code at the failing input): the calls `writer(k)`, `insertAll()`,
`writer(k)`, `insertAll()` made one after another on a fresh buffer, with one job slot.
The first pass starts a task with the generation number 1.  When the second pass is
about to seal generation 1, `wm[1]` holds the second segment of `k`; its `shift()` moves
that entry to `rm[1]`; the task of the first pass then runs `remove(1, k)`, which deletes
that entry; the loop of the second pass over `readers(2)` finds no entry and the pass
ends without a task for the segment `wm[1]` held: the only task ever started is the one
of the first pass, and the second segment is in neither map. -/
theorem insertAll_skips_evicted_segment :
    (LoaderState.exec (fun _ => true) (LoaderState.calls newBuffer 0 1 twoPasses)
        (evictBeforeLoop.take 9)).main = .shift false ∧
    look (LoaderState.exec (fun _ => true) (LoaderState.calls newBuffer 0 1 twoPasses)
        (evictBeforeLoop.take 9)).buffer.wm 1 "20160101-ds-tbl" = some (exampleSegment 1) ∧
    look (LoaderState.exec (fun _ => true) (LoaderState.calls newBuffer 0 1 twoPasses)
        (evictBeforeLoop.take 10)).buffer.rm 1 "20160101-ds-tbl" = some (exampleSegment 1) ∧
    (LoaderState.exec (fun _ => true) (LoaderState.calls newBuffer 0 1 twoPasses)
        (evictBeforeLoop.take 10)).tasks =
      [(⟨1, "20160101-ds-tbl", exampleSegment 0⟩, .insert)] ∧
    look (LoaderState.exec (fun _ => true) (LoaderState.calls newBuffer 0 1 twoPasses)
        (evictBeforeLoop.take 14)).buffer.rm 1 "20160101-ds-tbl" = none ∧
    (LoaderState.exec (fun _ => true) (LoaderState.calls newBuffer 0 1 twoPasses)
        evictBeforeLoop).tasks = [(⟨1, "20160101-ds-tbl", exampleSegment 0⟩, .done)] ∧
    (LoaderState.exec (fun _ => true) (LoaderState.calls newBuffer 0 1 twoPasses)
        evictBeforeLoop).main = .next ∧
    (LoaderState.exec (fun _ => true) (LoaderState.calls newBuffer 0 1 twoPasses)
        evictBeforeLoop).program = [] ∧
    (LoaderState.exec (fun _ => true) (LoaderState.calls newBuffer 0 1 twoPasses)
        evictBeforeLoop).fault = none ∧
    look (LoaderState.exec (fun _ => true) (LoaderState.calls newBuffer 0 1 twoPasses)
        evictBeforeLoop).buffer.rm 1 "20160101-ds-tbl" = none ∧
    look (LoaderState.exec (fun _ => true) (LoaderState.calls newBuffer 0 1 twoPasses)
        evictBeforeLoop).buffer.wm 1 "20160101-ds-tbl" = none := by
  decide

/-- The same loss with the loop waiting at the gate: with two names `a`, `b` written in
both generations and one job slot, the loop of the second pass has reached the entry of
`a` and waits for the slot; the task the first pass started for `b` runs `remove(1, b)`,
which deletes the entry of `b` from the bucket `rm[1]` the loop ranges over, and releases
the slot; the loop then starts the task of `a` and ends.  Tasks were started for the
allocations 0, 1 (first pass) and 2; the segment at address 3, which `wm[1]` held under
`b` when the second pass sealed generation 1, is never submitted. -/
theorem insertAll_skips_entry_evicted_at_gate :
    ((LoaderState.exec (fun _ => true) (LoaderState.calls newBuffer 0 1 twoNamesTwice)
        (evictAtGate.take 18)).buffer.wm.lookup 1).map
      (fun b => b.entries.map (fun e => (e.1, e.2.addr))) =
        some [("20160101-ds-b", 3), ("20160101-ds-a", 2)] ∧
    (LoaderState.exec (fun _ => true) (LoaderState.calls newBuffer 0 1 twoNamesTwice)
        (evictAtGate.take 22)).main.gateName = some "20160101-ds-a" ∧
    (LoaderState.exec (fun _ => true) (LoaderState.calls newBuffer 0 1 twoNamesTwice)
        (evictAtGate.take 22)).jobSem = 1 ∧
    (entriesOf ((LoaderState.exec (fun _ => true)
        (LoaderState.calls newBuffer 0 1 twoNamesTwice)
        (evictAtGate.take 22)).buffer.rm.lookup 1)).map (fun e => (e.1, e.2.addr)) =
      [("20160101-ds-a", 2), ("20160101-ds-b", 3)] ∧
    (entriesOf ((LoaderState.exec (fun _ => true)
        (LoaderState.calls newBuffer 0 1 twoNamesTwice)
        (evictAtGate.take 25)).buffer.rm.lookup 1)).map (fun e => (e.1, e.2.addr)) =
      [("20160101-ds-a", 2)] ∧
    (LoaderState.exec (fun _ => true) (LoaderState.calls newBuffer 0 1 twoNamesTwice)
        evictAtGate).tasks.map (fun e => (e.1.n, e.1.k, e.1.v.addr)) =
      [(1, "20160101-ds-a", 0), (1, "20160101-ds-b", 1), (2, "20160101-ds-a", 2)] ∧
    (LoaderState.exec (fun _ => true) (LoaderState.calls newBuffer 0 1 twoNamesTwice)
        evictAtGate).main = .next ∧
    (LoaderState.exec (fun _ => true) (LoaderState.calls newBuffer 0 1 twoNamesTwice)
        evictAtGate).program = [] := by
  decide

/-! ## Two concurrent `writer` calls -/

theorem writerSection_alone (openOk : Bool) (name : String) (buf : buffer) (next : Nat) :
    (Race.run openOk name buf next [true, true]).a =
        .returned ((buf.writer next openOk name).map (fun r => r.1)) ∧
    (∀ r, buf.writer next openOk name = .ok r →
      (Race.run openOk name buf next [true, true]).buf = r.2.1 ∧
      (Race.run openOk name buf next [true, true]).next = r.2.2) := by
  unfold Race.run buffer.writer
  simp only [List.foldl_cons, List.foldl_nil, Race.step, if_true, writerSection]
  cases hl : buf.writerLookup name with
  | some f =>
    simp only [writerSection, Except.map]
    refine ⟨trivial, ?_⟩
    intro r hr
    cases hr
    exact ⟨rfl, rfl⟩
  | none =>
    simp only [writerSection]
    cases hc : buf.writerCreate next openOk name with
    | error e =>
      simp only [Except.map]
      refine ⟨trivial, ?_⟩
      intro r hr
      cases hr
    | ok r0 =>
      simp only [Except.map]
      refine ⟨trivial, ?_⟩
      intro r hr
      cases hr
      exact ⟨rfl, rfl⟩

/-- C10 (the code at the failing input): two `writer("20160101-ds-tbl")` calls on a
fresh buffer, both running their lookup before either runs its create-and-register
section, return two different segment instances (addresses 0 and 1), `newFile` is called
twice, and the segment the first call returned is replaced in `wm[0]` by the second. -/
theorem concurrent_writers_create_two_segments :
    (Race.run true "20160101-ds-tbl" newBuffer 0 [true, false, true, false]).a =
      .returned (.ok (exampleSegment 0)) ∧
    (Race.run true "20160101-ds-tbl" newBuffer 0 [true, false, true, false]).b =
      .returned (.ok (exampleSegment 1)) ∧
    (exampleSegment 0).addr ≠ (exampleSegment 1).addr ∧
    (Race.run true "20160101-ds-tbl" newBuffer 0 [true, false, true, false]).newFileCalls
      = 2 ∧
    look (Race.run true "20160101-ds-tbl" newBuffer 0 [true, false, true, false]).buf.wm 0
      "20160101-ds-tbl" = some (exampleSegment 1) := by
  decide

/-! ## `Close` -/

/-- C9 (the code at the failing input): `Close` on a `Loader` whose active generation
holds one segment, with one job slot.  Under the schedule `closeFirst` the goroutine of
`Close` starts the submission task and closes both channels (its nine steps) before the
task has sent anything; the task then sends on a closed channel and faults, whether `insert` succeeded
or failed, and no outcome has been delivered. -/
theorem Close_closes_before_outcomes :
    (LoaderState.run (fun _ => true) oneSegmentBuffer 1 closeFirst).fault =
      some .sendOnClosedChannel ∧
    (LoaderState.run (fun _ => false) oneSegmentBuffer 1 closeFirst).fault =
      some .sendOnClosedChannel ∧
    (LoaderState.run (fun _ => true) oneSegmentBuffer 1 closeFirst).main = .done ∧
    (LoaderState.run (fun _ => true) oneSegmentBuffer 1 closeFirst).tasks =
      [(⟨1, "20160101-ds-tbl", exampleSegment 0⟩, .crashed)] ∧
    (LoaderState.run (fun _ => true) oneSegmentBuffer 1 closeFirst).successes = [] ∧
    (LoaderState.run (fun _ => false) oneSegmentBuffer 1 closeFirst).errors = [] ∧
    (LoaderState.run (fun _ => true) oneSegmentBuffer 1 (closeFirst.take 9)).tasks =
      [(⟨1, "20160101-ds-tbl", exampleSegment 0⟩, .insert)] ∧
    (LoaderState.run (fun _ => true) oneSegmentBuffer 1 (closeFirst.take 9)).successesClosed
      = true ∧
    (LoaderState.run (fun _ => true) oneSegmentBuffer 1 (closeFirst.take 9)).errorsClosed
      = true := by
  decide

/-! ## The segment name: when the round trip holds -/

theorem stringsSplit_plain (t : List Char) (h : ∀ c ∈ t, c ≠ '-') :
    stringsSplit '-' t = [t] := by
  induction t with
  | nil => rfl
  | cons c cs ih =>
    have hc : c ≠ '-' := h c (List.mem_cons_self _ _)
    simp only [stringsSplit, if_neg hc, ih (fun x hx => h x (List.mem_cons_of_mem _ hx))]

theorem stringsSplit_append (p rest : List Char) (h : ∀ c ∈ p, c ≠ '-') :
    stringsSplit '-' (p ++ '-' :: rest) = p :: stringsSplit '-' rest := by
  induction p with
  | nil => simp [stringsSplit]
  | cons c cs ih =>
    have hc : c ≠ '-' := h c (List.mem_cons_self _ _)
    show stringsSplit '-' (c :: (cs ++ '-' :: rest)) = _
    simp only [stringsSplit, if_neg hc, ih (fun x hx => h x (List.mem_cons_of_mem _ hx))]

theorem takeWhile_append_stop (q : Char → Bool) (l1 : List Char) (a : Char)
    (l2 : List Char) (h1 : ∀ x ∈ l1, q x = true) (ha : q a = false) :
    (l1 ++ a :: l2).takeWhile q = l1 := by
  induction l1 with
  | nil => simp [List.takeWhile, ha]
  | cons c cs ih =>
    show (c :: (cs ++ a :: l2)).takeWhile q = _
    simp only [List.takeWhile, h1 c (List.mem_cons_self _ _),
      ih (fun x hx => h1 x (List.mem_cons_of_mem _ hx))]

theorem takeWhile_all (q : Char → Bool) (l1 : List Char) (h1 : ∀ x ∈ l1, q x = true) :
    l1.takeWhile q = l1 := by
  induction l1 with
  | nil => rfl
  | cons c cs ih =>
    simp only [List.takeWhile, h1 c (List.mem_cons_self _ _),
      ih (fun x hx => h1 x (List.mem_cons_of_mem _ hx))]

theorem dropWhile_reverse_plain (pre b : List Char) (hne : b ≠ [])
    (h : ∀ c ∈ b, c ≠ '/') :
    (b.reverse ++ pre).dropWhile (fun c => decide (c = '/')) = b.reverse ++ pre := by
  cases hb : b.reverse with
  | nil => exact absurd (List.reverse_eq_nil_iff.mp hb) hne
  | cons x xs =>
    have hx : x ≠ '/' := h x (by
      have : x ∈ b.reverse := by rw [hb]; exact List.mem_cons_self _ _
      exact List.mem_reverse.mp this)
    simp [List.dropWhile, hx]

theorem pathBase_dir (d b : List Char) (hne : b ≠ []) (h : ∀ c ∈ b, c ≠ '/') :
    pathBase (d ++ '/' :: b) = b := by
  have hrev : (d ++ '/' :: b).reverse = b.reverse ++ '/' :: d.reverse := by simp
  have hq : lastElement (stripTrailingSlashes (d ++ '/' :: b)) = b := by
    unfold lastElement stripTrailingSlashes
    rw [hrev, dropWhile_reverse_plain _ b hne h, List.reverse_reverse,
      takeWhile_append_stop _ _ _ _ (fun x hx => by
        simpa using h x (List.mem_reverse.mp hx)) (by simp), List.reverse_reverse]
  unfold pathBase
  rw [if_neg (by simp)]
  simp only [hq, if_neg hne]

theorem pathBase_plain (b : List Char) (hne : b ≠ []) (h : ∀ c ∈ b, c ≠ '/') :
    pathBase b = b := by
  have hq : lastElement (stripTrailingSlashes b) = b := by
    unfold lastElement stripTrailingSlashes
    have h0 := dropWhile_reverse_plain [] b hne h
    rw [List.append_nil] at h0
    rw [h0, List.reverse_reverse,
      takeWhile_all _ _ (fun x hx => by simpa using h x (List.mem_reverse.mp hx)),
      List.reverse_reverse]
  unfold pathBase
  rw [if_neg hne]
  simp only [hq, if_neg hne]

theorem digitChar_plain : ∀ m < 10, Nat.digitChar m ≠ '-' ∧ Nat.digitChar m ≠ '/' := by
  decide

theorem toDigitsCore_plain (fuel n : Nat) (ds : List Char)
    (hds : ∀ c ∈ ds, c ≠ '-' ∧ c ≠ '/') :
    ∀ c ∈ Nat.toDigitsCore 10 fuel n ds, c ≠ '-' ∧ c ≠ '/' := by
  induction fuel generalizing n ds with
  | zero => exact hds
  | succ fuel ih =>
    have hd := digitChar_plain (n % 10) (Nat.mod_lt _ (by decide))
    have hcons : ∀ c ∈ Nat.digitChar (n % 10) :: ds, c ≠ '-' ∧ c ≠ '/' := by
      intro c hc
      rcases List.mem_cons.mp hc with rfl | hc
      · exact hd
      · exact hds c hc
    simp only [Nat.toDigitsCore]
    split
    · exact hcons
    · exact ih _ _ hcons

theorem toString_nat_plain (n : Nat) : ∀ c ∈ (toString n).toList, c ≠ '-' ∧ c ≠ '/' :=
  toDigitsCore_plain (n + 1) n [] (fun _ hc => absurd hc (List.not_mem_nil _))

theorem name_toList (n : Nat) (r : Row) :
    (Loader.name (n : Int) r).toList =
      (toString n).toList ++ '-' :: (r.DatasetID.toList ++ '-' :: r.TableID.toList) := by
  have h : Loader.name (n : Int) r = toString n ++ "-" ++ r.DatasetID ++ "-" ++ r.TableID :=
    rfl
  rw [h]
  simp [String.toList, String.data_append]

theorem newFile_of_parts (addr : Nat) (name : String) (p d t : List Char)
    (h : stringsSplit '-' (pathBase name.toList) = [p, d, t]) :
    (newFile addr true name).map (fun f => (f.datasetID, f.tableID)) =
      .ok (String.mk d, String.mk t) := by
  unfold newFile
  simp only [h, if_true]
  rfl

/-- The round trip of C6 where it holds: when the window stamp is not negative and the
dataset and table identifiers contain neither a dash nor a slash, the segment `newFile`
creates for the name `Loader.name` builds has the row's `DatasetID` and `TableID`, also
when the name is placed under any directory `dir`. -/
theorem name_roundtrip (addr : Nat) (stamp : Int) (hs : 0 ≤ stamp) (r : Row) (dir : String)
    (hd : ∀ c ∈ r.DatasetID.toList, c ≠ '-' ∧ c ≠ '/')
    (ht : ∀ c ∈ r.TableID.toList, c ≠ '-' ∧ c ≠ '/') :
    (newFile addr true (Loader.name stamp r)).map (fun f => (f.datasetID, f.tableID)) =
      .ok (r.DatasetID, r.TableID) ∧
    (newFile addr true (dir ++ "/" ++ Loader.name stamp r)).map
      (fun f => (f.datasetID, f.tableID)) = .ok (r.DatasetID, r.TableID) := by
  obtain ⟨n, rfl⟩ := Int.eq_ofNat_of_zero_le hs
  have hn := toString_nat_plain n
  have hne : (Loader.name (n : Int) r).toList ≠ [] := by
    rw [name_toList]
    simp
  have hslash : ∀ c ∈ (Loader.name (n : Int) r).toList, c ≠ '/' := by
    rw [name_toList]
    intro c hc
    simp only [List.mem_append, List.mem_cons] at hc
    rcases hc with hc | rfl | hc | rfl | hc
    · exact (hn c hc).2
    · decide
    · exact (hd c hc).2
    · decide
    · exact (ht c hc).2
  have hsplit : stringsSplit '-' (Loader.name (n : Int) r).toList =
      [(toString n).toList, r.DatasetID.toList, r.TableID.toList] := by
    rw [name_toList, stringsSplit_append _ _ (fun c hc => (hn c hc).1),
      stringsSplit_append _ _ (fun c hc => (hd c hc).1),
      stringsSplit_plain _ (fun c hc => (ht c hc).1)]
  constructor
  · have := newFile_of_parts addr (Loader.name (n : Int) r) _ _ _
      (by rw [pathBase_plain _ hne hslash]; exact hsplit)
    exact this
  · have hl : (dir ++ "/" ++ Loader.name (n : Int) r).toList =
        dir.toList ++ '/' :: (Loader.name (n : Int) r).toList := by
      simp [String.toList, String.data_append]
    have := newFile_of_parts addr (dir ++ "/" ++ Loader.name (n : Int) r) _ _ _
      (by rw [hl, pathBase_dir _ _ hne hslash]; exact hsplit)
    exact this

end bqloadbatcher
